import Mathlib

/-!
Verification of the tandem-repeat scanner in `src/main.c` of the
giab-repseq repository.  The C program is embedded shallowly: the ring
buffer, the per-period unit validators, the period-N scanning loop, the
homopolymer scanning loop and the FASTA driving loop are translated into
executable Lean functions, and the theorems below establish behavioural
properties of those functions.

Conventions of the embedding:
* the byte stream delivered by `fgetc` is a `List Char`; the end of the
  list plays the role of `EOF`;
* machine integers of the C code (`p`, `n`, ring indices) are natural
  numbers; all of them are non-negative along every reachable path of the
  C program, so `Nat` arithmetic (including `%`) agrees with C `int`
  arithmetic there;
* `malloc`ed storage is uninitialized in C; the unspecified initial byte
  is rendered by the placeholder character `'?'` (no theorem depends on
  that choice on inputs where the C program reads only initialized slots);
* `exit(-1)` becomes an `Except.error` carrying the message and the exit
  code, and text written to `stdout` becomes a `List Line`.
-/

namespace RepSeq

/-- One emitted repeat record: exactly the arguments passed to
`print_entry` in the C source, namely segment label `chr`, end position
`p`, run length `n`, and the repeating unit. -/
structure Entry where
  chr : String
  p : Nat
  n : Nat
  unit : List Char
deriving DecidableEq

/-- One line of standard output: either one of the two `#`-summary lines
printed by `read_fasta`, or one record line as formatted by
`print_entry`. -/
inductive Line where
  | summary (tag : String) (value : Int)
  | record (chr : String) (startPos stopPos : Nat) (unit : List Char)
deriving DecidableEq

/-- `print_entry(chr, p, n, unit)` prints the label, the start position
`p - n`, the end position `p` and the unit (`main.c` line 11). -/
def print_entry (e : Entry) : Line :=
  Line.record e.chr (e.p - e.n) e.p e.unit

/-- The ring buffer of `main.c` lines 19-22: a capacity `size` and the
backing storage `elements`. -/
structure Ring where
  size : Nat
  elements : List Char

/-- `init_ring` (line 24): the freshly `malloc`ed storage is
uninitialized, which the embedding renders as `'?'` placeholders. -/
def init_ring (size : Nat) : Ring :=
  ⟨size, List.replicate size '?'⟩

/-- `write_ring` (line 39): store `c` at slot `i % size`. -/
def write_ring (ring : Ring) (i : Nat) (c : Char) : Ring :=
  { ring with elements := ring.elements.set (i % ring.size) c }

/-- `read_ring` (line 43): read the slot `i % size`. -/
def read_ring (ring : Ring) (i : Nat) : Char :=
  ring.elements.getD (i % ring.size) '?'

/-- `invalid_repeat2` (line 59): a 2-mer is rejected iff it is a
homopolymer. -/
def invalid_repeat2 (lb : List Char) : Bool :=
  lb.getD 0 '?' == lb.getD 1 '?'

/-- `invalid_repeat3` (line 68): a 3-mer is rejected iff it is a
homopolymer. -/
def invalid_repeat3 (lb : List Char) : Bool :=
  lb.getD 0 '?' == lb.getD 1 '?' && lb.getD 1 '?' == lb.getD 2 '?'

/-- `invalid_repeat4` (line 77): a 4-mer is rejected iff it consists of
two identical dinucleotide repeats (which also excludes 4-mer
homopolymers). -/
def invalid_repeat4 (lb : List Char) : Bool :=
  lb.getD 0 '?' == lb.getD 2 '?' && lb.getD 1 '?' == lb.getD 3 '?'

/-- The scanning state of `main.c` lines 51-57.  The C struct stores a
function pointer to one of the three validators; the embedding keeps the
corresponding function of the raw buffer contents.  The `unit_buffer`
scratch space is rendered directly inside `print_entryN`. -/
structure SeqState where
  last_bases : Ring
  length : Nat
  invalid_repeat : List Char → Bool
  chr : String

/-- A fatal error: message printed to `stderr` together with the process
exit code passed to `exit`. -/
structure Fatal where
  msg : String
  code : Int
deriving DecidableEq

/-- `init_seq_state` (line 89): select the validator matching `rep`; any
other `rep` hits the `exit(-1)` branch. -/
def init_seq_state (chr : String) (rep : Int) (len : Nat) : Except Fatal SeqState :=
  if rep = 2 then .ok ⟨init_ring 2, len, invalid_repeat2, chr⟩
  else if rep = 3 then .ok ⟨init_ring 3, len, invalid_repeat3, chr⟩
  else if rep = 4 then .ok ⟨init_ring 4, len, invalid_repeat4, chr⟩
  else .error ⟨"invalid r (this should never happen)", -1⟩

/-- `print_entryN` (line 142): when the run length reaches the threshold,
reconstruct the unit from the ring starting at modular offset
`(p - n) % r` and emit one record; otherwise emit nothing. -/
def print_entryN (st : SeqState) (p n : Nat) : List Entry :=
  if st.length ≤ n then
    let r := st.last_bases.size
    let o := (p - n) % r
    [⟨st.chr, p, n, (List.range r).map fun j => read_ring st.last_bases (j + o)⟩]
  else []

/-- `next_n` (line 157): write the breaking/boundary symbol into the ring
and restart the run length at `size` minus the validator verdict. -/
def next_n (st : SeqState) (p : Nat) (c : Char) : SeqState × Nat :=
  let st2 := { st with last_bases := write_ring st.last_bases p c }
  (st2, st2.last_bases.size - (if st2.invalid_repeat st2.last_bases.elements then 1 else 0))

/-- Result of consuming one ordinary (non-`N`, non-break) symbol in
`scan_seqN`: the updated state, the updated run length, and any emitted
records. -/
structure StepOut where
  st : SeqState
  n : Nat
  out : List Entry

/-- The ordinary-symbol transition of `scan_seqN` (`main.c` lines
183-199), with `q = size - 1` as computed at line 166: fill phase for
`n < q`, comparison phase for `n > q`, boundary validation for
`n = q`. -/
def stepN (st : SeqState) (p n : Nat) (c : Char) : StepOut :=
  let q := st.last_bases.size - 1
  if n < q then
    ⟨{ st with last_bases := write_ring st.last_bases p c }, n + 1, []⟩
  else if q < n then
    let c0 := read_ring st.last_bases p
    if c0 = c then ⟨st, n + 1, []⟩
    else
      let r := next_n st p c
      ⟨r.1, r.2, print_entryN st p n⟩
  else
    let r := next_n st p c
    ⟨r.1, r.2, []⟩

/-- The loop body of `scan_seqN` (lines 168-203): newlines are ignored,
`N` flushes the current run and resets it, end of input or a `'>'` header
flushes the run and stops, and any other symbol goes through `stepN`.
Returns the emitted records, the final state and the unconsumed rest of
the stream. -/
def scan_seqN_go (st : SeqState) (p n : Nat) : List Char → List Entry × SeqState × List Char
  | [] => (print_entryN st p n, st, [])
  | c :: cs =>
    if c = '\n' then scan_seqN_go st p n cs
    else if c = 'N' then
      let r := scan_seqN_go st (p + 1) 0 cs
      (print_entryN st p n ++ r.1, r.2)
    else if c = '>' then (print_entryN st p n, st, cs)
    else
      let s := stepN st p n c
      let r := scan_seqN_go s.st (p + 1) s.n cs
      (s.out ++ r.1, r.2)

/-- `scan_seqN` (line 162): start a segment at `p = 0`, `n = 0`. -/
def scan_seqN (st : SeqState) (xs : List Char) : List Entry × SeqState × List Char :=
  scan_seqN_go st 0 0 xs

/-- The emission conditional of `scan_seq1` (`main.c` line 229): print
the completed run only when it is long enough and its symbol is not
`'N'`. -/
def emit1 (chr : String) (len : Nat) (p n : Nat) (last : Char) : List Entry :=
  if len ≤ n ∧ last ≠ 'N' then [⟨chr, p, n, [last]⟩] else []

/-- The loop body of `scan_seq1` (lines 220-242): newlines are ignored, a
symbol equal to `last_base` extends the run, any other symbol flushes the
run through the gate of line 229 and then either stops (end of input or
`'>'`) or restarts the run at length 1.  Returns the emitted records and
the unconsumed rest of the stream. -/
def scan_seq1_go (chr : String) (len : Nat) (last : Char) (p n : Nat) :
    List Char → List Entry × List Char
  | [] => (emit1 chr len p n last, [])
  | c :: cs =>
    if c = '\n' then scan_seq1_go chr len last p n cs
    else if c = last then scan_seq1_go chr len last (p + 1) (n + 1) cs
    else
      let es := emit1 chr len p n last
      if c = '>' then (es, cs)
      else
        let r := scan_seq1_go chr len c (p + 1) 1 cs
        (es ++ r.1, r.2)

/-- `scan_seq1` (line 214): start with the sentinel `last_base = 'N'`,
`p = 0`, `n = 1`. -/
def scan_seq1 (chr : String) (len : Nat) (xs : List Char) : List Entry × List Char :=
  scan_seq1_go chr len 'N' 0 1 xs

/-- The part of a raw symbol stream that one `scan_seqX` call actually
consumes and assigns positions to: newlines are skipped without advancing
`p`, and consumption stops at the first `'>'` header or at end of
input. -/
def consumedStream (xs : List Char) : List Char :=
  (xs.filter fun c => c != '\n').takeWhile fun c => c != '>'

/-- Character class skipped by `fscanf("%31s")`: the C `isspace` set. -/
def isWs (c : Char) : Bool :=
  c == ' ' || c == '\t' || c == '\n' || c == '\x0b' || c == '\x0c' || c == '\r'

/-- `seek_char` (line 249): drop symbols until `t` has been consumed;
`none` means `EOF` was reached first. -/
def seek_char (t : Char) : List Char → Option (List Char)
  | [] => none
  | c :: cs => if c = t then some cs else seek_char t cs

/-- `parse_header` (line 259): `fscanf("%31s")` skips whitespace and reads
at most 31 non-whitespace characters as the label, then `seek_char` skips
to the end of the header line.  The result is `none` exactly when
`parse_header` returns `EOF`, which stops the chromosome loop of
`read_fasta`. -/
def parse_header (xs : List Char) : Option String × List Char :=
  let ys := xs.dropWhile isWs
  match ys with
  | [] => (none, [])
  | _ :: _ =>
    let tok := (ys.takeWhile fun c => !(isWs c)).take 31
    match seek_char '\n' (ys.drop tok.length) with
    | none => (none, [])
    | some rest => (some (String.mk tok), rest)

/-- Termination fact for the chromosome loop: a successful `seek_char`
consumes at least the sought character. -/
theorem seek_char_length_lt (t : Char) :
    ∀ (ys zs : List Char), seek_char t ys = some zs → zs.length < ys.length := by
  intro ys
  induction ys with
  | nil => intro zs hz; simp [seek_char] at hz
  | cons a as ih =>
    intro zs hz
    simp only [seek_char] at hz
    split at hz
    · simp only [Option.some.injEq] at hz
      subst hz
      simp
    · have := ih zs hz
      simp
      omega

/-- Dropping a prefix can only shorten a list. -/
theorem length_dropWhile_le' (p : Char → Bool) :
    ∀ (l : List Char), (l.dropWhile p).length ≤ l.length := by
  intro l
  induction l with
  | nil => simp
  | cons a as ih =>
    rw [List.dropWhile_cons]
    split
    · simp; omega
    · simp

/-- Termination fact for the chromosome loop: a successful `parse_header`
consumes at least one character. -/
theorem parse_header_length_lt (xs : List Char) (label : String) (rest : List Char) :
    parse_header xs = (some label, rest) → rest.length < xs.length := by
  intro h
  unfold parse_header at h
  rcases hd : xs.dropWhile isWs with _ | ⟨y, ys⟩ <;> rw [hd] at h
  · simp at h
  · simp only at h
    split at h
    · simp at h
    · rename_i zs hs
      simp only [Prod.mk.injEq, Option.some.injEq] at h
      have h1 := seek_char_length_lt '\n' _ _ hs
      rw [List.length_drop] at h1
      have h3 : (y :: ys).length ≤ xs.length := by
        have := length_dropWhile_le' isWs xs
        rw [hd] at this
        exact this
      have h4 := h.2
      subst h4
      simp only [List.length_cons] at h1 h3 ⊢
      omega

/-- Termination fact for the chromosome loop: `scan_seq1` only consumes
input. -/
theorem scan_seq1_go_length_le (chr : String) (len : Nat) :
    ∀ (xs : List Char) (last : Char) (p n : Nat),
      (scan_seq1_go chr len last p n xs).2.length ≤ xs.length := by
  intro xs
  induction xs with
  | nil => intro last p n; simp [scan_seq1_go]
  | cons c cs ih =>
    intro last p n
    simp only [scan_seq1_go]
    split
    · have := ih last p n; simp; omega
    · split
      · have := ih last (p + 1) (n + 1); simp; omega
      · split
        · simp
        · have := ih c (p + 1) 1; simp; omega

/-- Termination fact for the chromosome loop: `scan_seqN` only consumes
input. -/
theorem scan_seqN_go_length_le :
    ∀ (xs : List Char) (st : SeqState) (p n : Nat),
      (scan_seqN_go st p n xs).2.2.length ≤ xs.length := by
  intro xs
  induction xs with
  | nil => intro st p n; simp [scan_seqN_go]
  | cons c cs ih =>
    intro st p n
    simp only [scan_seqN_go]
    split
    · have := ih st p n; simp; omega
    · split
      · have := ih st (p + 1) 0; simp; omega
      · split
        · simp
        · have := ih (stepN st p n c).st (p + 1) (stepN st p n c).n; simp; omega

/-- The chromosome loop of `read_fasta` (lines 315-323): parse one header,
scan one segment with the machine selected once at configuration time
(`none` selects `scan_seq1`, `some st` the period-N machine whose state is
threaded from segment to segment), and continue on the rest of the
stream. -/
def read_chromosomes (len : Nat) (mst : Option SeqState) (xs : List Char) : List Entry :=
  match h : parse_header xs with
  | (none, _) => []
  | (some label, rest) =>
    match mst with
    | none =>
      let r := scan_seq1 label len rest
      r.1 ++ read_chromosomes len none r.2
    | some st =>
      let r := scan_seqN { st with chr := label } rest
      r.1 ++ read_chromosomes len (some r.2.1) r.2.2
termination_by xs.length
decreasing_by
  · have h1 := parse_header_length_lt xs label rest h
    have h2 := scan_seq1_go_length_le label len rest 'N' 0 1
    simp only [scan_seq1]
    omega
  · have h1 := parse_header_length_lt xs label rest h
    have h2 := scan_seqN_go_length_le rest { st with chr := label } 0 0
    simp only [scan_seqN]
    omega

/-- `read_fasta` (line 275): validate the configuration (fatally on
failure), seek the first header, initialize the period-N state if needed
(fatally on an invalid period), print the two summary lines and run the
chromosome loop.  `fileOk` renders `fp != NULL`. -/
def read_fasta (rep len : Int) (fileOk : Bool) (xs : List Char) : Except Fatal (List Line) :=
  if len ≤ rep then .error ⟨"Repeat length must be less than total length", -1⟩
  else if 4 < rep then .error ⟨"Repeat length must be in [1,4]", -1⟩
  else if fileOk = false then .error ⟨"Error in opening file", -1⟩
  else
    let ys := (seek_char '>' xs).getD []
    if rep = 1 then
      .ok (.summary "#repeat_length" rep :: .summary "#total_length" len ::
        (read_chromosomes len.toNat none ys).map print_entry)
    else
      match init_seq_state "" rep len.toNat with
      | .error f => .error f
      | .ok st =>
        .ok (.summary "#repeat_length" rep :: .summary "#total_length" len ::
          (read_chromosomes len.toNat (some st) ys).map print_entry)

/-- View the raw ring slots `e` as the current window ordered oldest
first, when the oldest symbol of the window lives at absolute position
`k`: the slot list rotated left by `k % e.length`. -/
def oldestFirst (e : List Char) (k : Nat) : List Char :=
  e.drop (k % e.length) ++ e.take (k % e.length)

/-- Well-formedness of one homopolymer record `e` against the consumed
stream `t` of its segment: the record reports a single non-terminator
symbol, all `n` reported positions hold that symbol, and the run is
maximal (the neighbouring symbols, where they exist inside the segment,
differ). -/
def GoodRun (t : List Char) (e : Entry) : Prop :=
  ∃ b, e.unit = [b] ∧ b ≠ 'N' ∧ 1 ≤ e.n ∧ e.n ≤ e.p ∧ e.p ≤ t.length ∧
    (∀ i, e.p - e.n ≤ i → i < e.p → t.getD i '?' = b) ∧
    (e.p - e.n = 0 ∨ t.getD (e.p - e.n - 1) '?' ≠ b) ∧
    (e.p = t.length ∨ t.getD e.p '?' ≠ b)

/-- The loop invariant of `scan_seq1` for the consumed prefix `s₀`, the
tracked symbol `last` and the current count `n`: the tracked symbol is
never the header character, it agrees with the most recently consumed
symbol, and, unless it is the sentinel/terminator `'N'`, the last `n`
consumed symbols form a maximal suffix of copies of `last`. -/
def Inv1 (s₀ : List Char) (last : Char) (n : Nat) : Prop :=
  last ≠ '>' ∧
  (1 ≤ s₀.length → s₀.getD (s₀.length - 1) '?' = last) ∧
  (last ≠ 'N' →
    1 ≤ n ∧ n ≤ s₀.length ∧
    (∀ i, s₀.length - n ≤ i → i < s₀.length → s₀.getD i '?' = last) ∧
    (n < s₀.length → s₀.getD (s₀.length - n - 1) '?' ≠ last))

/-- The buffer-freshness invariant of the period-N scanner for the
consumed prefix `s₀`, the state `st` and the current run length `n`: the
storage is well formed, the run fits in the consumed prefix, each of the
last `min n size` consumed positions `i` is cached in ring slot
`i % size`, and the run is periodic with period `size` once it is longer
than `size`. -/
def InvN (s₀ : List Char) (st : SeqState) (n : Nat) : Prop :=
  st.last_bases.elements.length = st.last_bases.size ∧
  n ≤ s₀.length ∧
  (∀ i, s₀.length - min n st.last_bases.size ≤ i → i < s₀.length →
    read_ring st.last_bases i = s₀.getD i '?') ∧
  (∀ i, s₀.length - n ≤ i → i + st.last_bases.size < s₀.length →
    s₀.getD i '?' = s₀.getD (i + st.last_bases.size) '?')

/-- Well-formedness of one period-N record `e` (for ring size `r` and
threshold `L`) against the consumed stream `t` of its segment: the run
passed the threshold gate, it lies inside the consumed stream, and the
reported unit is exactly the first `r` symbols of the run. -/
def GoodRunN (r L : Nat) (t : List Char) (e : Entry) : Prop :=
  e.unit.length = r ∧ L ≤ e.n ∧ e.n ≤ e.p ∧ e.p ≤ t.length ∧
  ∀ j, j < r → e.unit.getD j '?' = t.getD (e.p - e.n + j) '?'

/-- The scanning state that `init_seq_state` builds for period 4,
threshold 8 and label `"chr"`. -/
def st4 : SeqState :=
  ⟨init_ring 4, 8, invalid_repeat4, "chr"⟩

/-- Reading a slot just written. -/
theorem getD_set_self' :
    ∀ (l : List Char) (m : Nat) (a d : Char), m < l.length → (l.set m a).getD m d = a := by
  intro l
  induction l with
  | nil => intro m a d h; simp at h
  | cons x xs ih =>
    intro m a d h
    cases m with
    | zero => simp
    | succ k =>
      simp only [List.set_cons_succ, List.getD_cons_succ]
      exact ih k a d (by simp at h; omega)

/-- Reading a slot other than the one written. -/
theorem getD_set_ne' :
    ∀ (l : List Char) (m k : Nat) (a d : Char), m ≠ k → (l.set m a).getD k d = l.getD k d := by
  intro l
  induction l with
  | nil => intro m k a d h; simp
  | cons x xs ih =>
    intro m k a d h
    cases m with
    | zero =>
      cases k with
      | zero => exact absurd rfl h
      | succ kk => simp
    | succ mm =>
      cases k with
      | zero => simp
      | succ kk =>
        simp only [List.set_cons_succ, List.getD_cons_succ]
        exact ih mm kk a d (by omega)

/-- Reading inside the left part of an appended list. -/
theorem getD_append_left' :
    ∀ (l l2 : List Char) (i : Nat) (d : Char), i < l.length → (l ++ l2).getD i d = l.getD i d := by
  intro l
  induction l with
  | nil => intro l2 i d h; simp at h
  | cons x xs ih =>
    intro l2 i d h
    cases i with
    | zero => simp
    | succ k =>
      simp only [List.cons_append, List.getD_cons_succ]
      exact ih l2 k d (by simp at h; omega)

/-- Reading inside the right part of an appended list. -/
theorem getD_append_right' :
    ∀ (l l2 : List Char) (k : Nat) (d : Char), (l ++ l2).getD (l.length + k) d = l2.getD k d := by
  intro l
  induction l with
  | nil => intro l2 k d; simp
  | cons x xs ih =>
    intro l2 k d
    have hx : (x :: xs).length + k = (xs.length + k) + 1 := by simp; omega
    rw [hx]
    simp only [List.cons_append, List.getD_cons_succ]
    exact ih l2 k d

/-- Reading the first symbol appended after a list. -/
theorem getD_append_self' (l : List Char) (c d : Char) :
    (l ++ c :: []).getD l.length d = c := by
  have := getD_append_right' l (c :: []) 0 d
  simpa using this

/-- C9.  The circular buffer contract: `write_ring` stores the symbol at
slot `i % size` and changes no other slot, `read_ring` returns the symbol
most recently written to the addressed slot, and the modulo reduction
keeps every access inside the `size`-element storage, so no access is out
of bounds. -/
theorem c9_ring_contract (ring : Ring) (i j : Nat) (c : Char)
    (hwf : ring.elements.length = ring.size) (hpos : 0 < ring.size) :
    i % ring.size < ring.size ∧
    i % ring.size < ring.elements.length ∧
    (write_ring ring i c).size = ring.size ∧
    (write_ring ring i c).elements.length = ring.elements.length ∧
    read_ring (write_ring ring i c) i = c ∧
    (j % ring.size = i % ring.size → read_ring (write_ring ring i c) j = c) ∧
    (j % ring.size ≠ i % ring.size → read_ring (write_ring ring i c) j = read_ring ring j) := by
  have hmod : i % ring.size < ring.size := Nat.mod_lt i hpos
  refine ⟨hmod, by omega, rfl, by simp [write_ring], ?_, ?_, ?_⟩
  · unfold read_ring write_ring
    simp only
    exact getD_set_self' ring.elements (i % ring.size) c '?' (by omega)
  · intro hji
    unfold read_ring write_ring
    simp only [hji]
    exact getD_set_self' ring.elements (i % ring.size) c '?' (by omega)
  · intro hji
    unfold read_ring write_ring
    simp only
    exact getD_set_ne' ring.elements (i % ring.size) (j % ring.size) c '?' (fun h => hji h.symm)

/-- C9 witness. -/
theorem c9_ring_contract_witness :
    read_ring (write_ring ⟨2, ['A', 'C']⟩ 5 'G') 3 = 'G' :=
  (c9_ring_contract ⟨2, ['A', 'C']⟩ 5 3 'G' rfl (by decide)).2.2.2.2.2.1 (by decide)

/-- C3.  The unit validators: viewing the ring slots as the window in
oldest-first order (any cyclic rotation of the raw slots), `invalid_repeat2`
holds exactly when the two symbols are equal, `invalid_repeat3` exactly when
all three are equal, and `invalid_repeat4` exactly when symbol 0 equals
symbol 2 and symbol 1 equals symbol 3. -/
theorem c3_unit_validator_definitions :
    (∀ (a b : Char) (k : Nat),
      invalid_repeat2 [a, b] = true ↔
        (oldestFirst [a, b] k).getD 0 '?' = (oldestFirst [a, b] k).getD 1 '?') ∧
    (∀ (a b c : Char) (k : Nat),
      invalid_repeat3 [a, b, c] = true ↔
        ((oldestFirst [a, b, c] k).getD 0 '?' = (oldestFirst [a, b, c] k).getD 1 '?' ∧
         (oldestFirst [a, b, c] k).getD 1 '?' = (oldestFirst [a, b, c] k).getD 2 '?')) ∧
    (∀ (a b c d : Char) (k : Nat),
      invalid_repeat4 [a, b, c, d] = true ↔
        ((oldestFirst [a, b, c, d] k).getD 0 '?' = (oldestFirst [a, b, c, d] k).getD 2 '?' ∧
         (oldestFirst [a, b, c, d] k).getD 1 '?' = (oldestFirst [a, b, c, d] k).getD 3 '?')) := by
  refine ⟨?_, ?_, ?_⟩
  · intro a b k
    have hk : k % 2 = 0 ∨ k % 2 = 1 := by omega
    rcases hk with hk | hk
    · simp [oldestFirst, invalid_repeat2, hk]
    · simp only [oldestFirst, List.length_cons, List.length_nil, hk]
      simp only [invalid_repeat2, List.drop, List.take, List.nil_append, List.cons_append,
        List.append_nil, List.getD_cons_zero, List.getD_cons_succ, beq_iff_eq]
      exact eq_comm
  · intro a b c k
    have hk : k % 3 = 0 ∨ k % 3 = 1 ∨ k % 3 = 2 := by omega
    rcases hk with hk | hk | hk <;>
      simp only [oldestFirst, List.length_cons, List.length_nil, hk] <;>
      simp only [invalid_repeat3, List.drop, List.take, List.nil_append, List.cons_append,
        List.append_nil, List.getD_cons_zero, List.getD_cons_succ, Bool.and_eq_true,
        beq_iff_eq] <;>
      constructor <;> rintro ⟨rfl, rfl⟩ <;> exact ⟨rfl, rfl⟩
  · intro a b c d k
    have hk : k % 4 = 0 ∨ k % 4 = 1 ∨ k % 4 = 2 ∨ k % 4 = 3 := by omega
    rcases hk with hk | hk | hk | hk <;>
      simp only [oldestFirst, List.length_cons, List.length_nil, hk] <;>
      simp only [invalid_repeat4, List.drop, List.take, List.nil_append, List.cons_append,
        List.append_nil, List.getD_cons_zero, List.getD_cons_succ, Bool.and_eq_true,
        beq_iff_eq] <;>
      constructor <;> rintro ⟨rfl, rfl⟩ <;> exact ⟨rfl, rfl⟩

/-- C8.  Degeneracy-filter scenario at period 4, threshold 8: the segment
`ATATATAT` produces no record, the segment `AATTAATTAATT` produces exactly
one record of length 12 with unit `AATT`, `ATAT` is degenerate under the
period-4 rule and `AATT` is not. -/
theorem c8_degeneracy_scenario :
    init_seq_state "chr" 4 8 = Except.ok st4 ∧
    (scan_seqN st4 "ATATATAT".toList).1 = [] ∧
    (scan_seqN st4 "AATTAATTAATT".toList).1 = [⟨"chr", 12, 12, "AATT".toList⟩] ∧
    invalid_repeat4 "ATAT".toList = true ∧
    invalid_repeat4 "AATT".toList = false :=
  ⟨rfl, rfl, rfl, rfl, rfl⟩

/-- Every record produced by `print_entryN` passed the threshold gate and
reports the current position, run length and reconstructed unit. -/
theorem print_entryN_mem (st : SeqState) (p n : Nat) (e : Entry) :
    e ∈ print_entryN st p n →
      st.length ≤ n ∧
      e = ⟨st.chr, p, n, (List.range st.last_bases.size).map
            fun j => read_ring st.last_bases (j + (p - n) % st.last_bases.size)⟩ := by
  unfold print_entryN
  split
  · intro he
    rename_i hle
    simp only [List.mem_singleton] at he
    exact ⟨hle, he⟩
  · intro he
    simp at he

/-- Every record produced by the `scan_seq1` gate passed the threshold and
the non-terminator test. -/
theorem emit1_mem (chr : String) (len p n : Nat) (last : Char) (e : Entry) :
    e ∈ emit1 chr len p n last →
      len ≤ n ∧ last ≠ 'N' ∧ e = ⟨chr, p, n, [last]⟩ := by
  unfold emit1
  split
  · intro he
    rename_i hc
    simp only [List.mem_singleton] at he
    exact ⟨hc.1, hc.2, he⟩
  · intro he
    simp at he

/-- `stepN` never changes the threshold field. -/
theorem stepN_length_eq (st : SeqState) (p n : Nat) (c : Char) :
    (stepN st p n c).st.length = st.length := by
  unfold stepN next_n
  by_cases h1 : n < st.last_bases.size - 1 <;>
    by_cases h2 : st.last_bases.size - 1 < n <;>
    by_cases h3 : read_ring st.last_bases p = c <;>
    simp [h1, h2, h3]

/-- `stepN` never changes the ring capacity. -/
theorem stepN_size_eq (st : SeqState) (p n : Nat) (c : Char) :
    (stepN st p n c).st.last_bases.size = st.last_bases.size := by
  unfold stepN next_n
  by_cases h1 : n < st.last_bases.size - 1 <;>
    by_cases h2 : st.last_bases.size - 1 < n <;>
    by_cases h3 : read_ring st.last_bases p = c <;>
    simp [h1, h2, h3, write_ring]

/-- `stepN` never changes the segment label. -/
theorem stepN_chr_eq (st : SeqState) (p n : Nat) (c : Char) :
    (stepN st p n c).st.chr = st.chr := by
  unfold stepN next_n
  by_cases h1 : n < st.last_bases.size - 1 <;>
    by_cases h2 : st.last_bases.size - 1 < n <;>
    by_cases h3 : read_ring st.last_bases p = c <;>
    simp [h1, h2, h3]

/-- `stepN` never changes the validator. -/
theorem stepN_validator_eq (st : SeqState) (p n : Nat) (c : Char) :
    (stepN st p n c).st.invalid_repeat = st.invalid_repeat := by
  unfold stepN next_n
  by_cases h1 : n < st.last_bases.size - 1 <;>
    by_cases h2 : st.last_bases.size - 1 < n <;>
    by_cases h3 : read_ring st.last_bases p = c <;>
    simp [h1, h2, h3]

/-- Every record emitted while a step of `stepN` executes passed the
threshold gate. -/
theorem stepN_out_gate (st : SeqState) (p n : Nat) (c : Char) (e : Entry) :
    e ∈ (stepN st p n c).out → st.length ≤ e.n := by
  unfold stepN
  by_cases h1 : n < st.last_bases.size - 1
  · simp [h1]
  · by_cases h2 : st.last_bases.size - 1 < n
    · by_cases h3 : read_ring st.last_bases p = c
      · simp [h1, h2, h3]
      · simp only [if_neg h1, if_pos h2, if_neg h3]
        intro he
        obtain ⟨hg, hee⟩ := print_entryN_mem st p n e he
        subst hee
        exact hg
    · simp [h1, h2]

/-- Every record of a `scan_seqN` run passed the threshold gate. -/
theorem scan_seqN_go_gate :
    ∀ (xs : List Char) (st : SeqState) (p n : Nat) (e : Entry),
      e ∈ (scan_seqN_go st p n xs).1 → st.length ≤ e.n := by
  intro xs
  induction xs with
  | nil =>
    intro st p n e he
    simp only [scan_seqN_go] at he
    obtain ⟨h1, h2⟩ := print_entryN_mem st p n e he
    subst h2
    exact h1
  | cons c cs ih =>
    intro st p n e he
    simp only [scan_seqN_go] at he
    split at he
    · exact ih st p n e he
    · split at he
      · simp only [List.mem_append] at he
        rcases he with he | he
        · obtain ⟨h1, h2⟩ := print_entryN_mem st p n e he
          subst h2
          exact h1
        · exact ih st (p + 1) 0 e he
      · split at he
        · obtain ⟨h1, h2⟩ := print_entryN_mem st p n e he
          subst h2
          exact h1
        · simp only [List.mem_append] at he
          rcases he with he | he
          · exact stepN_out_gate st p n c e he
          · have := ih (stepN st p n c).st (p + 1) (stepN st p n c).n e he
            rw [stepN_length_eq] at this
            exact this

/-- Every record of a `scan_seq1` run passed the threshold gate. -/
theorem scan_seq1_go_gate (chr : String) (len : Nat) :
    ∀ (xs : List Char) (last : Char) (p n : Nat) (e : Entry),
      e ∈ (scan_seq1_go chr len last p n xs).1 → len ≤ e.n := by
  intro xs
  induction xs with
  | nil =>
    intro last p n e he
    simp only [scan_seq1_go] at he
    obtain ⟨h1, _, h3⟩ := emit1_mem chr len p n last e he
    subst h3
    exact h1
  | cons c cs ih =>
    intro last p n e he
    simp only [scan_seq1_go] at he
    split at he
    · exact ih last p n e he
    · split at he
      · exact ih last (p + 1) (n + 1) e he
      · split at he
        · obtain ⟨h1, _, h3⟩ := emit1_mem chr len p n last e he
          subst h3
          exact h1
        · simp only [List.mem_append] at he
          rcases he with he | he
          · obtain ⟨h1, _, h3⟩ := emit1_mem chr len p n last e he
            subst h3
            exact h1
          · exact ih c (p + 1) 1 e he

/-- C6.  The emission gate: `print_entryN` produces a record exactly when
the run length has reached the threshold, the `scan_seq1` gate produces a
record for a non-terminator run exactly when its length has reached the
threshold, and consequently every record emitted by either scan machine
(the end-of-sequence flush included) has run length at least the
threshold. -/
theorem c6_emission_gate :
    (∀ (st : SeqState) (p n : Nat), print_entryN st p n ≠ [] ↔ st.length ≤ n) ∧
    (∀ (chr : String) (len p n : Nat) (last : Char), last ≠ 'N' →
      (emit1 chr len p n last ≠ [] ↔ len ≤ n)) ∧
    (∀ (st : SeqState) (xs : List Char) (e : Entry),
      e ∈ (scan_seqN st xs).1 → st.length ≤ e.n) ∧
    (∀ (chr : String) (len : Nat) (xs : List Char) (e : Entry),
      e ∈ (scan_seq1 chr len xs).1 → len ≤ e.n) := by
  refine ⟨?_, ?_, ?_, ?_⟩
  · intro st p n
    unfold print_entryN
    split
    · rename_i h; simp [h]
    · rename_i h; simp [h]
  · intro chr len p n last hlast
    unfold emit1
    split
    · rename_i h; simp [h.1]
    · rename_i h
      simp only [ne_eq, not_true_eq_false, false_iff]
      intro hle
      exact h ⟨hle, hlast⟩
  · intro st xs e he
    exact scan_seqN_go_gate xs st 0 0 e he
  · intro chr len xs e he
    exact scan_seq1_go_gate chr len xs 'N' 0 1 e he

/-- C6 witness. -/
theorem c6_emission_gate_witness : emit1 "chr" 3 5 3 'A' ≠ [] :=
  (c6_emission_gate.2.1 "chr" 3 5 3 'A' (by decide)).mpr (by decide)

/-- C1.  The comparison phase: for a state with `run_length ≥ period` and
an ordinary incoming symbol `c` at position `p`, a match with the buffer
value at slot `p % period` increments the run length by exactly one and
leaves the whole state (in particular the buffer) unchanged, while a
mismatch first emits the current run with end position `p` and length `n`
(through the threshold gate of `print_entryN`), then writes `c` at slot
`p % period`, runs the validator on the resulting window and restarts the
run length at `period` or `period - 1`. -/
theorem c1_comparison_phase (st : SeqState) (p n : Nat) (c : Char)
    (hsize : 2 ≤ st.last_bases.size) (hn : st.last_bases.size ≤ n) :
    (read_ring st.last_bases p = c → stepN st p n c = ⟨st, n + 1, []⟩) ∧
    (read_ring st.last_bases p ≠ c →
      stepN st p n c =
        ⟨{ st with last_bases := write_ring st.last_bases p c },
         (if st.invalid_repeat (write_ring st.last_bases p c).elements
            then st.last_bases.size - 1 else st.last_bases.size),
         print_entryN st p n⟩) := by
  have h1 : ¬ (n < st.last_bases.size - 1) := by omega
  have h2 : st.last_bases.size - 1 < n := by omega
  constructor
  · intro hc
    simp only [stepN, if_neg h1, if_pos h2, if_pos hc]
  · intro hc
    simp only [stepN, next_n, if_neg h1, if_pos h2, if_neg hc]
    by_cases hb : st.invalid_repeat (write_ring st.last_bases p c).elements = true
    · simp only [write_ring] at hb
      simp [hb, write_ring]
    · simp only [Bool.not_eq_true] at hb
      simp only [write_ring] at hb
      simp [hb, write_ring]

/-- C1 witness. -/
theorem c1_comparison_phase_witness :
    stepN ⟨⟨2, ['A', 'B']⟩, 3, invalid_repeat2, "chr"⟩ 0 2 'A' =
      ⟨⟨⟨2, ['A', 'B']⟩, 3, invalid_repeat2, "chr"⟩, 3, []⟩ :=
  (c1_comparison_phase ⟨⟨2, ['A', 'B']⟩, 3, invalid_repeat2, "chr"⟩ 0 2 'A'
    (by decide) (by decide)).1 rfl

/-- C2.  The boundary validation step: for a state with
`run_length = period - 1` and an ordinary incoming symbol `c` at position
`p`, the step writes `c` into slot `p % period`, emits nothing, and sets
the run length to `period` when the completed window is accepted by the
validator and to `period - 1` when it is rejected; moreover the validator
verdict can influence a step only through this write-and-validate
treatment: in the fill phase and in the matching comparison phase the
step's buffer, run length and output do not depend on the validator at
all. -/
theorem c2_boundary_validation (st : SeqState) (p : Nat) (c : Char)
    (hsize : 2 ≤ st.last_bases.size) :
    (stepN st p (st.last_bases.size - 1) c =
      ⟨{ st with last_bases := write_ring st.last_bases p c },
       (if st.invalid_repeat (write_ring st.last_bases p c).elements
          then st.last_bases.size - 1 else st.last_bases.size),
       []⟩) ∧
    (∀ (lb : Ring) (len : Nat) (label : String) (v₁ v₂ : List Char → Bool) (n : Nat),
      (n < lb.size - 1 ∨ (lb.size - 1 < n ∧ read_ring lb p = c)) →
      (stepN ⟨lb, len, v₁, label⟩ p n c).st.last_bases =
        (stepN ⟨lb, len, v₂, label⟩ p n c).st.last_bases ∧
      (stepN ⟨lb, len, v₁, label⟩ p n c).n = (stepN ⟨lb, len, v₂, label⟩ p n c).n ∧
      (stepN ⟨lb, len, v₁, label⟩ p n c).out = (stepN ⟨lb, len, v₂, label⟩ p n c).out) := by
  constructor
  · have h1 : ¬ (st.last_bases.size - 1 < st.last_bases.size - 1) := by omega
    simp only [stepN, next_n, if_neg h1]
    by_cases hb : st.invalid_repeat (write_ring st.last_bases p c).elements = true
    · simp only [write_ring] at hb
      simp [hb, write_ring]
    · simp only [Bool.not_eq_true] at hb
      simp only [write_ring] at hb
      simp [hb, write_ring]
  · intro lb len label v₁ v₂ n hcase
    rcases hcase with hlt | ⟨hgt, heq⟩
    · simp [stepN, if_pos hlt]
    · have h1 : ¬ (n < lb.size - 1) := by omega
      simp [stepN, h1, hgt, heq]

/-- C2 witness. -/
theorem c2_boundary_validation_witness :
    stepN ⟨⟨2, ['X', 'Y']⟩, 3, invalid_repeat2, "chr"⟩ 1 1 'Z' =
      ⟨⟨⟨2, ['X', 'Z']⟩, 3, invalid_repeat2, "chr"⟩, 2, []⟩ :=
  (c2_boundary_validation ⟨⟨2, ['X', 'Y']⟩, 3, invalid_repeat2, "chr"⟩ 1 'Z' (by decide)).1

/-- C5.  Configuration errors: an invalid period, a threshold not
strictly greater than the period, or an unreadable input source makes
`read_fasta` fail with a fatal error carrying a non-zero exit code before
any scanning produces output; and with period 5 the outcome does not
depend on the input stream at all (the input is never read). -/
theorem c5_configuration_errors (rep len : Int) (fileOk : Bool) (xs : List Char) :
    ((¬(rep = 1 ∨ rep = 2 ∨ rep = 3 ∨ rep = 4) ∨ len ≤ rep ∨ fileOk = false) →
      ∃ f, read_fasta rep len fileOk xs = Except.error f ∧ f.code ≠ 0) ∧
    (∀ ys, read_fasta 5 len fileOk xs = read_fasta 5 len fileOk ys) := by
  constructor
  · intro h
    by_cases h1 : len ≤ rep
    · refine ⟨⟨"Repeat length must be less than total length", -1⟩, ?_, by decide⟩
      unfold read_fasta
      rw [if_pos h1]
    · by_cases h2 : 4 < rep
      · refine ⟨⟨"Repeat length must be in [1,4]", -1⟩, ?_, by decide⟩
        unfold read_fasta
        rw [if_neg h1, if_pos h2]
      · by_cases h3 : fileOk = false
        · refine ⟨⟨"Error in opening file", -1⟩, ?_, by decide⟩
          unfold read_fasta
          rw [if_neg h1, if_neg h2, if_pos h3]
        · have hrep : ¬(rep = 1 ∨ rep = 2 ∨ rep = 3 ∨ rep = 4) := by
            rcases h with h | h | h
            · exact h
            · exact absurd h h1
            · exact absurd h h3
          push_neg at hrep
          obtain ⟨hr1, hr2, hr3, hr4⟩ := hrep
          refine ⟨⟨"invalid r (this should never happen)", -1⟩, ?_, by decide⟩
          unfold read_fasta init_seq_state
          rw [if_neg h1, if_neg h2, if_neg h3, if_neg hr1, if_neg hr2, if_neg hr3, if_neg hr4]
  · intro ys
    unfold read_fasta
    by_cases h1 : len ≤ (5 : Int)
    · rw [if_pos h1, if_pos h1]
    · rw [if_neg h1, if_neg h1, if_pos (by norm_num : (4 : Int) < 5),
        if_pos (by norm_num : (4 : Int) < 5)]

/-- C5 witness. -/
theorem c5_configuration_errors_witness :
    ∃ f, read_fasta 5 10 true ['A'] = Except.error f ∧ f.code ≠ 0 :=
  (c5_configuration_errors 5 10 true ['A']).1 (Or.inl (by decide))

/-- Records produced during a `stepN` step report the step's position and
run length. -/
theorem stepN_out_pn (st : SeqState) (p n : Nat) (c : Char) (e : Entry) :
    e ∈ (stepN st p n c).out → e.p = p ∧ e.n = n := by
  unfold stepN
  by_cases h1 : n < st.last_bases.size - 1
  · simp [h1]
  · by_cases h2 : st.last_bases.size - 1 < n
    · by_cases h3 : read_ring st.last_bases p = c
      · simp [h1, h2, h3]
      · simp only [if_neg h1, if_pos h2, if_neg h3]
        intro he
        obtain ⟨-, hee⟩ := print_entryN_mem st p n e he
        subst hee
        exact ⟨rfl, rfl⟩
    · simp [h1, h2]

/-- One `stepN` step grows the run length by at most one. -/
theorem stepN_n_le (st : SeqState) (p n : Nat) (c : Char) (h : n ≤ p) :
    (stepN st p n c).n ≤ p + 1 := by
  unfold stepN next_n
  by_cases h1 : n < st.last_bases.size - 1
  · simp only [if_pos h1]
    omega
  · by_cases h2 : st.last_bases.size - 1 < n
    · by_cases h3 : read_ring st.last_bases p = c
      · simp only [if_neg h1, if_pos h2, if_pos h3]
        omega
      · simp only [if_neg h1, if_pos h2, if_neg h3, write_ring]
        split <;> omega
    · simp only [if_neg h1, if_neg h2, write_ring]
      split <;> omega

/-- In every record of a `scan_seqN` run the run fits before its end
position. -/
theorem scan_seqN_go_n_le_p :
    ∀ (xs : List Char) (st : SeqState) (p n : Nat) (e : Entry),
      n ≤ p → e ∈ (scan_seqN_go st p n xs).1 → e.n ≤ e.p := by
  intro xs
  induction xs with
  | nil =>
    intro st p n e hnp he
    simp only [scan_seqN_go] at he
    obtain ⟨-, hee⟩ := print_entryN_mem st p n e he
    subst hee
    exact hnp
  | cons c cs ih =>
    intro st p n e hnp he
    simp only [scan_seqN_go] at he
    split at he
    · exact ih st p n e hnp he
    · split at he
      · simp only [List.mem_append] at he
        rcases he with he | he
        · obtain ⟨-, hee⟩ := print_entryN_mem st p n e he
          subst hee
          exact hnp
        · exact ih st (p + 1) 0 e (by omega) he
      · split at he
        · obtain ⟨-, hee⟩ := print_entryN_mem st p n e he
          subst hee
          exact hnp
        · simp only [List.mem_append] at he
          rcases he with he | he
          · obtain ⟨hp, hn⟩ := stepN_out_pn st p n c e he
            omega
          · exact ih (stepN st p n c).st (p + 1) (stepN st p n c).n e
              (stepN_n_le st p n c hnp) he

/-- Records produced by the `scan_seq1` gate report the gate's position,
run length and a non-terminator symbol. -/
theorem scan_seq1_go_n_le_p (chr : String) (len : Nat) :
    ∀ (xs : List Char) (last : Char) (p n : Nat) (e : Entry),
      (last ≠ 'N' → n ≤ p) → e ∈ (scan_seq1_go chr len last p n xs).1 → e.n ≤ e.p := by
  intro xs
  induction xs with
  | nil =>
    intro last p n e hnp he
    simp only [scan_seq1_go] at he
    obtain ⟨-, h2, h3⟩ := emit1_mem chr len p n last e he
    subst h3
    exact hnp h2
  | cons c cs ih =>
    intro last p n e hnp he
    simp only [scan_seq1_go] at he
    split at he
    · exact ih last p n e hnp he
    · split at he
      · exact ih last (p + 1) (n + 1) e (fun hl => by have := hnp hl; omega) he
      · split at he
        · obtain ⟨-, h2, h3⟩ := emit1_mem chr len p n last e he
          subst h3
          exact hnp h2
        · simp only [List.mem_append] at he
          rcases he with he | he
          · obtain ⟨-, h2, h3⟩ := emit1_mem chr len p n last e he
            subst h3
            exact hnp h2
          · exact ih c (p + 1) 1 e (fun _ => by omega) he

/-- In every record of the chromosome loop the run fits before its end
position. -/
theorem read_chromosomes_n_le_p (len : Nat) :
    ∀ (mst : Option SeqState) (xs : List Char) (e : Entry),
      e ∈ read_chromosomes len mst xs → e.n ≤ e.p := by
  intro mst xs
  induction mst, xs using read_chromosomes.induct len with
  | case1 mst xs snd h =>
    intro e he
    rw [read_chromosomes, h] at he
    simp at he
  | case2 xs label rest h r ih =>
    intro e he
    rw [read_chromosomes, h] at he
    simp only [List.mem_append] at he
    rcases he with he | he
    · exact scan_seq1_go_n_le_p label len rest 'N' 0 1 e (by simp) he
    · exact ih e he
  | case3 xs label rest h st r ih =>
    intro e he
    rw [read_chromosomes, h] at he
    simp only [List.mem_append] at he
    rcases he with he | he
    · exact scan_seqN_go_n_le_p rest _ 0 0 e (Nat.le_refl 0) he
    · exact ih e he

/-- C4.  Output format: a successful `read_fasta` run prints exactly two
summary lines, one with the configured period and one with the configured
threshold, before any per-run record, and every following line is one
record rendered by `print_entry` from a label, an end position, a run
length and a unit, with start position equal to end position minus run
length. -/
theorem c4_output_format (rep len : Int) (fileOk : Bool) (xs : List Char) (lines : List Line)
    (h : read_fasta rep len fileOk xs = Except.ok lines) :
    ∃ entries : List Entry,
      lines = Line.summary "#repeat_length" rep :: Line.summary "#total_length" len ::
        entries.map print_entry ∧
      ∀ e ∈ entries,
        print_entry e = Line.record e.chr (e.p - e.n) e.p e.unit ∧
        e.p - e.n + e.n = e.p := by
  unfold read_fasta at h
  split at h
  · exact absurd h (by simp)
  · split at h
    · exact absurd h (by simp)
    · split at h
      · exact absurd h (by simp)
      · split at h
        · simp only [Except.ok.injEq] at h
          refine ⟨read_chromosomes len.toNat none ((seek_char '>' xs).getD []), h.symm, ?_⟩
          intro e he
          refine ⟨rfl, ?_⟩
          have := read_chromosomes_n_le_p len.toNat none _ e he
          omega
        · split at h
          · exact absurd h (by simp)
          · rename_i st heq
            simp only [Except.ok.injEq] at h
            refine ⟨read_chromosomes len.toNat (some st) ((seek_char '>' xs).getD []), h.symm, ?_⟩
            intro e he
            refine ⟨rfl, ?_⟩
            have := read_chromosomes_n_le_p len.toNat (some st) _ e he
            omega

/-- C4 witness. -/
theorem c4_output_format_witness :
    ∃ entries : List Entry,
      ([Line.summary "#repeat_length" 1, Line.summary "#total_length" 2] : List Line) =
        Line.summary "#repeat_length" 1 :: Line.summary "#total_length" 2 ::
          entries.map print_entry ∧
      ∀ e ∈ entries,
        print_entry e = Line.record e.chr (e.p - e.n) e.p e.unit ∧
        e.p - e.n + e.n = e.p :=
  c4_output_format 1 2 true []
    [Line.summary "#repeat_length" 1, Line.summary "#total_length" 2]
    (by rw [read_fasta]; norm_num; rw [read_chromosomes.eq_def]; simp [parse_header, seek_char])

/-- Newlines do not reach the consumed stream. -/
theorem consumedStream_newline (cs : List Char) :
    consumedStream ('\n' :: cs) = consumedStream cs := by
  simp [consumedStream]

/-- The consumed stream stops at a header character. -/
theorem consumedStream_gt (cs : List Char) : consumedStream ('>' :: cs) = [] := by
  simp [consumedStream]

/-- An ordinary symbol heads the consumed stream. -/
theorem consumedStream_cons (c : Char) (cs : List Char) (h1 : c ≠ '\n') (h2 : c ≠ '>') :
    consumedStream (c :: cs) = c :: consumedStream cs := by
  simp [consumedStream, List.filter_cons, List.takeWhile_cons, h1, h2]

/-- The emission cases of `scan_seq1` produce well-formed maximal
homopolymer records, from the loop invariant `Inv1`. -/
theorem scan_seq1_go_goodruns (chr : String) (len : Nat) :
    ∀ (cs : List Char) (last : Char) (p n : Nat) (s₀ : List Char),
      p = s₀.length → Inv1 s₀ last n →
      ∀ e, e ∈ (scan_seq1_go chr len last p n cs).1 →
        GoodRun (s₀ ++ consumedStream cs) e := by
  intro cs
  induction cs with
  | nil =>
    intro last p n s₀ hp hinv e he
    simp only [scan_seq1_go] at he
    obtain ⟨h1, h2, h3⟩ := emit1_mem chr len p n last e he
    obtain ⟨-, -, hrun⟩ := hinv
    obtain ⟨hn1, hn2, hwin, hbef⟩ := hrun h2
    subst h3
    subst hp
    rw [show consumedStream [] = [] from rfl, List.append_nil]
    refine ⟨last, rfl, h2, hn1, hn2, Nat.le_refl _, hwin, ?_, Or.inl rfl⟩
    by_cases hz : s₀.length - n = 0
    · exact Or.inl hz
    · exact Or.inr (hbef (by omega))
  | cons c cs ih =>
    intro last p n s₀ hp hinv e he
    simp only [scan_seq1_go] at he
    by_cases hc1 : c = '\n'
    · rw [if_pos hc1] at he
      subst hc1
      rw [consumedStream_newline]
      exact ih last p n s₀ hp hinv e he
    · rw [if_neg hc1] at he
      by_cases hc2 : c = last
      · rw [if_pos hc2] at he
        obtain ⟨hgt, hrec, hrun⟩ := hinv
        subst hc2
        rw [consumedStream_cons c cs hc1 hgt]
        rw [show s₀ ++ c :: consumedStream cs = (s₀ ++ [c]) ++ consumedStream cs by simp]
        refine ih c (p + 1) (n + 1) (s₀ ++ [c]) (by simp [hp]) ⟨hgt, ?_, ?_⟩ e he
        · intro _
          rw [show (s₀ ++ [c]).length - 1 = s₀.length by simp]
          exact getD_append_self' s₀ c '?'
        · intro hlastN
          obtain ⟨hn1, hn2, hwin, hbef⟩ := hrun hlastN
          refine ⟨by omega, by simp; omega, ?_, ?_⟩
          · intro i hi1 hi2
            simp only [List.length_append, List.length_cons, List.length_nil] at hi1 hi2
            by_cases hi3 : i < s₀.length
            · rw [getD_append_left' s₀ [c] i '?' hi3]
              exact hwin i (by omega) hi3
            · rw [show i = s₀.length by omega]
              exact getD_append_self' s₀ c '?'
          · intro hlt
            simp only [List.length_append, List.length_cons, List.length_nil] at hlt ⊢
            rw [show s₀.length + 1 - (n + 1) - 1 = s₀.length - n - 1 by omega]
            rw [getD_append_left' s₀ [c] _ '?' (by omega)]
            exact hbef (by omega)
      · rw [if_neg hc2] at he
        by_cases hc3 : c = '>'
        · rw [if_pos hc3] at he
          subst hc3
          rw [consumedStream_gt, List.append_nil]
          obtain ⟨h1, h2, h3⟩ := emit1_mem chr len p n last e he
          obtain ⟨-, -, hrun⟩ := hinv
          obtain ⟨hn1, hn2, hwin, hbef⟩ := hrun h2
          subst h3
          subst hp
          refine ⟨last, rfl, h2, hn1, hn2, Nat.le_refl _, hwin, ?_, Or.inl rfl⟩
          by_cases hz : s₀.length - n = 0
          · exact Or.inl hz
          · exact Or.inr (hbef (by omega))
        · rw [if_neg hc3] at he
          simp only [List.mem_append] at he
          rw [consumedStream_cons c cs hc1 hc3]
          rcases he with he | he
          · obtain ⟨h1, h2, h3⟩ := emit1_mem chr len p n last e he
            obtain ⟨-, -, hrun⟩ := hinv
            obtain ⟨hn1, hn2, hwin, hbef⟩ := hrun h2
            subst h3
            subst hp
            refine ⟨last, rfl, h2, hn1, hn2, by simp, ?_, ?_, ?_⟩
            · intro i hi1 hi2
              simp only at hi1 hi2
              rw [getD_append_left' s₀ _ i '?' (by omega)]
              exact hwin i hi1 hi2
            · simp only
              by_cases hz : s₀.length - n = 0
              · exact Or.inl hz
              · refine Or.inr ?_
                rw [getD_append_left' s₀ _ _ '?' (by omega)]
                exact hbef (by omega)
            · refine Or.inr ?_
              simp only
              have hread := getD_append_right' s₀ (c :: consumedStream cs) 0 '?'
              rw [Nat.add_zero] at hread
              rw [hread]
              simp only [List.getD_cons_zero]
              exact fun hcl => hc2 hcl
          · rw [show s₀ ++ c :: consumedStream cs = (s₀ ++ [c]) ++ consumedStream cs by simp]
            obtain ⟨hgt, hrec, hrun⟩ := hinv
            refine ih c (p + 1) 1 (s₀ ++ [c]) (by simp [hp]) ⟨hc3, ?_, ?_⟩ e he
            · intro _
              rw [show (s₀ ++ [c]).length - 1 = s₀.length by simp]
              exact getD_append_self' s₀ c '?'
            · intro hcN
              refine ⟨Nat.le_refl 1, by simp, ?_, ?_⟩
              · intro i hi1 hi2
                simp only [List.length_append, List.length_cons, List.length_nil] at hi1 hi2
                rw [show i = s₀.length by omega]
                exact getD_append_self' s₀ c '?'
              · intro hlt
                simp only [List.length_append, List.length_cons, List.length_nil] at hlt ⊢
                rw [show s₀.length + 1 - 1 - 1 = s₀.length - 1 by omega]
                rw [getD_append_left' s₀ [c] _ '?' (by omega)]
                rw [hrec (by omega)]
                exact fun hlc => hc2 hlc.symm

/-- C7.  Homopolymer postcondition: every record emitted by `scan_seq1`
reports a single non-terminator symbol, all `run_length` positions of the
run (in the consumed stream of the segment) hold exactly that symbol, and
the run is maximal: the symbols immediately before and after it, when
they exist within the segment, differ from the run's symbol. -/
theorem c7_homopolymer_postcondition (chr : String) (len : Nat) (xs : List Char) (e : Entry)
    (he : e ∈ (scan_seq1 chr len xs).1) :
    GoodRun (consumedStream xs) e := by
  have h := scan_seq1_go_goodruns chr len xs 'N' 0 1 [] rfl
    ⟨by decide, fun hh => absurd hh (by simp), fun hh => absurd rfl hh⟩ e he
  simpa using h

/-- C7 witness. -/
theorem c7_homopolymer_postcondition_witness :
    GoodRun (consumedStream ['A', 'A', 'B']) ⟨"c", 2, 2, ['A']⟩ :=
  c7_homopolymer_postcondition "c" 2 ['A', 'A', 'B'] ⟨"c", 2, 2, ['A']⟩ (by decide)

/-- Reading back the slot addressed by the write. -/
theorem read_ring_write_same (ring : Ring) (i j : Nat) (c : Char)
    (hwf : ring.elements.length = ring.size) (hpos : 0 < ring.size)
    (h : j % ring.size = i % ring.size) :
    read_ring (write_ring ring i c) j = c := by
  show (ring.elements.set (i % ring.size) c).getD (j % ring.size) '?' = c
  rw [h]
  exact getD_set_self' ring.elements (i % ring.size) c '?'
    (by have := Nat.mod_lt i hpos; omega)

/-- Reading a slot not addressed by the write. -/
theorem read_ring_write_other (ring : Ring) (i j : Nat) (c : Char)
    (h : j % ring.size ≠ i % ring.size) :
    read_ring (write_ring ring i c) j = read_ring ring j := by
  show (ring.elements.set (i % ring.size) c).getD (j % ring.size) '?' =
    ring.elements.getD (j % ring.size) '?'
  exact getD_set_ne' ring.elements (i % ring.size) (j % ring.size) c '?' (fun hh => h hh.symm)

/-- Two positions less than one period apart never share a ring slot. -/
theorem mod_ne_of_sub_lt (i p r : Nat) (h0 : i < p) (h2 : p - i < r) :
    i % r ≠ p % r := by
  intro h
  have hz := Nat.sub_mod_eq_zero_of_mod_eq h.symm
  rw [Nat.mod_eq_of_lt h2] at hz
  omega

/-- Iterating the one-period periodicity of a run. -/
theorem per_closure (s₀ : List Char) (r base : Nat)
    (hper : ∀ i, base ≤ i → i + r < s₀.length → s₀.getD i '?' = s₀.getD (i + r) '?') :
    ∀ (k m : Nat), base ≤ m → m + k * r < s₀.length →
      s₀.getD m '?' = s₀.getD (m + k * r) '?' := by
  intro k
  induction k with
  | zero => intro m hm hk; simp
  | succ kk ihk =>
    intro m hm hk
    have hmul : (kk + 1) * r = kk * r + r := by ring
    rw [hmul] at hk
    have h1 : s₀.getD m '?' = s₀.getD (m + r) '?' := hper m hm (by omega)
    have h2 := ihk (m + r) (by omega) (by omega)
    rw [h1, h2, hmul]
    congr 1
    omega

/-- The fill-phase branch of `stepN`. -/
theorem stepN_eq_fill (st : SeqState) (p n : Nat) (c : Char)
    (h : n < st.last_bases.size - 1) :
    stepN st p n c = ⟨{ st with last_bases := write_ring st.last_bases p c }, n + 1, []⟩ := by
  unfold stepN
  rw [if_pos h]

/-- The matching comparison branch of `stepN`. -/
theorem stepN_eq_match (st : SeqState) (p n : Nat) (c : Char)
    (h : st.last_bases.size - 1 < n) (heq : read_ring st.last_bases p = c) :
    stepN st p n c = ⟨st, n + 1, []⟩ := by
  unfold stepN
  rw [if_neg (by omega), if_pos h, if_pos heq]

/-- The mismatching comparison branch of `stepN`. -/
theorem stepN_eq_mismatch (st : SeqState) (p n : Nat) (c : Char)
    (h : st.last_bases.size - 1 < n) (hne : read_ring st.last_bases p ≠ c) :
    stepN st p n c =
      ⟨{ st with last_bases := write_ring st.last_bases p c },
       st.last_bases.size -
         (if st.invalid_repeat (write_ring st.last_bases p c).elements then 1 else 0),
       print_entryN st p n⟩ := by
  unfold stepN next_n
  rw [if_neg (by omega), if_pos h, if_neg hne]
  rfl

/-- The boundary-validation branch of `stepN`. -/
theorem stepN_eq_boundary (st : SeqState) (p n : Nat) (c : Char)
    (h1 : ¬ (n < st.last_bases.size - 1)) (h2 : ¬ (st.last_bases.size - 1 < n)) :
    stepN st p n c =
      ⟨{ st with last_bases := write_ring st.last_bases p c },
       st.last_bases.size -
         (if st.invalid_repeat (write_ring st.last_bases p c).elements then 1 else 0),
       []⟩ := by
  unfold stepN next_n
  rw [if_neg h1, if_neg h2]
  rfl

/-- Writing the incoming symbol and restarting the run length at
`size - k` preserves the freshness invariant, provided the last full
period of consumed positions was cached. -/
theorem invN_write_restart (s₀ : List Char) (st : SeqState) (c : Char) (k : Nat)
    (hr : 2 ≤ st.last_bases.size)
    (hwf : st.last_bases.elements.length = st.last_bases.size)
    (hk : k ≤ 1)
    (hszp : st.last_bases.size ≤ s₀.length + 1)
    (hwin : ∀ i, s₀.length + 1 - st.last_bases.size ≤ i → i < s₀.length →
      read_ring st.last_bases i = s₀.getD i '?') :
    InvN (s₀ ++ [c]) { st with last_bases := write_ring st.last_bases s₀.length c }
      (st.last_bases.size - k) := by
  refine ⟨?_, ?_, ?_, ?_⟩
  · show (st.last_bases.elements.set (s₀.length % st.last_bases.size) c).length =
      st.last_bases.size
    rw [List.length_set]
    exact hwf
  · simp only [List.length_append, List.length_cons, List.length_nil]
    omega
  · intro i hi1 hi2
    simp only [List.length_append, List.length_cons, List.length_nil] at hi1 hi2
    have hsz : ({ st with last_bases := write_ring st.last_bases s₀.length c} :
        SeqState).last_bases.size = st.last_bases.size := rfl
    rw [hsz] at hi1
    by_cases hip : i = s₀.length
    · subst hip
      rw [getD_append_self']
      exact read_ring_write_same st.last_bases s₀.length s₀.length c hwf (by omega) rfl
    · have hilt : i < s₀.length := by omega
      rw [getD_append_left' s₀ [c] i '?' hilt]
      have hmodne : i % st.last_bases.size ≠ s₀.length % st.last_bases.size :=
        mod_ne_of_sub_lt i s₀.length st.last_bases.size hilt (by omega)
      show read_ring (write_ring st.last_bases s₀.length c) i = s₀.getD i '?'
      rw [read_ring_write_other st.last_bases s₀.length i c hmodne]
      exact hwin i (by omega) hilt
  · intro i hi1 hi2
    exfalso
    simp only [List.length_append, List.length_cons, List.length_nil] at hi1 hi2
    have hsz2 : (write_ring st.last_bases s₀.length c).size = st.last_bases.size := rfl
    rw [hsz2] at hi2
    omega

/-- One ordinary-symbol step of the period-N scanner preserves the
buffer-freshness invariant. -/
theorem invN_step (s₀ : List Char) (st : SeqState) (n : Nat) (c : Char)
    (hr : 2 ≤ st.last_bases.size) (hinv : InvN s₀ st n) :
    InvN (s₀ ++ [c]) (stepN st s₀.length n c).st (stepN st s₀.length n c).n := by
  obtain ⟨hwf, hnp, hfresh, hper⟩ := hinv
  by_cases h1 : n < st.last_bases.size - 1
  · rw [stepN_eq_fill st s₀.length n c h1]
    have key : InvN (s₀ ++ [c])
        { st with last_bases := write_ring st.last_bases s₀.length c } (n + 1) := by
      refine ⟨?_, ?_, ?_, ?_⟩
      · show (st.last_bases.elements.set (s₀.length % st.last_bases.size) c).length =
          st.last_bases.size
        rw [List.length_set]
        exact hwf
      · simp only [List.length_append, List.length_cons, List.length_nil]
        omega
      · intro i hi1 hi2
        simp only [List.length_append, List.length_cons, List.length_nil] at hi1 hi2
        have hsz : ({ st with last_bases := write_ring st.last_bases s₀.length c} :
            SeqState).last_bases.size = st.last_bases.size := rfl
        rw [hsz] at hi1
        by_cases hip : i = s₀.length
        · subst hip
          rw [getD_append_self']
          exact read_ring_write_same st.last_bases s₀.length s₀.length c hwf (by omega) rfl
        · have hilt : i < s₀.length := by omega
          rw [getD_append_left' s₀ [c] i '?' hilt]
          have hmodne : i % st.last_bases.size ≠ s₀.length % st.last_bases.size :=
            mod_ne_of_sub_lt i s₀.length st.last_bases.size hilt (by omega)
          show read_ring (write_ring st.last_bases s₀.length c) i = s₀.getD i '?'
          rw [read_ring_write_other st.last_bases s₀.length i c hmodne]
          exact hfresh i (by omega) hilt
      · intro i hi1 hi2
        exfalso
        simp only [List.length_append, List.length_cons, List.length_nil] at hi1 hi2
        have hsz2 : (write_ring st.last_bases s₀.length c).size = st.last_bases.size := rfl
        rw [hsz2] at hi2
        omega
    exact key
  · by_cases h2 : st.last_bases.size - 1 < n
    · by_cases h3 : read_ring st.last_bases s₀.length = c
      · rw [stepN_eq_match st s₀.length n c h2 h3]
        have key : InvN (s₀ ++ [c]) st (n + 1) := by
          refine ⟨hwf, ?_, ?_, ?_⟩
          · simp only [List.length_append, List.length_cons, List.length_nil]
            omega
          · intro i hi1 hi2
            simp only [List.length_append, List.length_cons, List.length_nil] at hi1 hi2
            by_cases hip : i = s₀.length
            · subst hip
              rw [getD_append_self']
              exact h3
            · have hilt : i < s₀.length := by omega
              rw [getD_append_left' s₀ [c] i '?' hilt]
              exact hfresh i (by omega) hilt
          · intro i hi1 hi2
            simp only [List.length_append, List.length_cons, List.length_nil] at hi1 hi2
            by_cases hend : i + st.last_bases.size < s₀.length
            · rw [getD_append_left' s₀ [c] i '?' (by omega),
                getD_append_left' s₀ [c] _ '?' hend]
              exact hper i (by omega) hend
            · have hieq : i + st.last_bases.size = s₀.length := by omega
              have hilt : i < s₀.length := by omega
              rw [getD_append_left' s₀ [c] i '?' hilt, hieq, getD_append_self']
              have hmodeq : i % st.last_bases.size = s₀.length % st.last_bases.size := by
                rw [← hieq, Nat.add_mod_right]
              have hif := hfresh i (by omega) hilt
              show s₀.getD i '?' = c
              rw [← hif]
              show st.last_bases.elements.getD (i % st.last_bases.size) '?' = c
              rw [hmodeq]
              exact h3
        exact key
      · rw [stepN_eq_mismatch st s₀.length n c h2 h3]
        exact invN_write_restart s₀ st c _ hr hwf (by split <;> omega) (by omega)
          (fun i hi1 hi2 => hfresh i (by omega) hi2)
    · rw [stepN_eq_boundary st s₀.length n c h1 h2]
      exact invN_write_restart s₀ st c _ hr hwf (by split <;> omega) (by omega)
        (fun i hi1 hi2 => hfresh i (by omega) hi2)

/-- Reading an entry of a tabulated list. -/
theorem getD_map_range (r j : Nat) (f : Nat → Char) (d : Char) (h : j < r) :
    ((List.range r).map f).getD j d = f j := by
  rw [List.getD_eq_getElem?_getD, List.getElem?_map, List.getElem?_range h]
  rfl

/-- Under the freshness invariant with a full window, the ring slot
addressed by any position of the first period of the run caches exactly
the symbol consumed at that position. -/
theorem invN_unit_read (s₀ : List Char) (st : SeqState) (n j : Nat)
    (hr : 2 ≤ st.last_bases.size) (hinv : InvN s₀ st n)
    (hn : st.last_bases.size ≤ n) (hj : j < st.last_bases.size) :
    read_ring st.last_bases (s₀.length - n + j) =
      s₀.getD (s₀.length - n + j) '?' := by
  obtain ⟨hwf, hnp, hfresh, hper⟩ := hinv
  have hm0lt : s₀.length - n + j < s₀.length := by omega
  have hdm := Nat.div_add_mod (s₀.length - 1 - (s₀.length - n + j)) st.last_bases.size
  have hmlt := Nat.mod_lt (s₀.length - 1 - (s₀.length - n + j))
    (show 0 < st.last_bases.size by omega)
  have hmc : st.last_bases.size * ((s₀.length - 1 - (s₀.length - n + j)) / st.last_bases.size) =
      ((s₀.length - 1 - (s₀.length - n + j)) / st.last_bases.size) * st.last_bases.size :=
    Nat.mul_comm _ _
  have hi1 : s₀.length - st.last_bases.size ≤
      (s₀.length - n + j) +
        ((s₀.length - 1 - (s₀.length - n + j)) / st.last_bases.size) * st.last_bases.size := by
    omega
  have hi2 : (s₀.length - n + j) +
      ((s₀.length - 1 - (s₀.length - n + j)) / st.last_bases.size) * st.last_bases.size <
      s₀.length := by
    omega
  have hifr := hfresh ((s₀.length - n + j) +
      ((s₀.length - 1 - (s₀.length - n + j)) / st.last_bases.size) * st.last_bases.size)
    (by omega) hi2
  have hmodeq : ((s₀.length - n + j) +
      ((s₀.length - 1 - (s₀.length - n + j)) / st.last_bases.size) * st.last_bases.size) %
        st.last_bases.size = (s₀.length - n + j) % st.last_bases.size :=
    Nat.add_mul_mod_self_right _ _ _
  have hreq : read_ring st.last_bases (s₀.length - n + j) =
      read_ring st.last_bases ((s₀.length - n + j) +
        ((s₀.length - 1 - (s₀.length - n + j)) / st.last_bases.size) * st.last_bases.size) := by
    show st.last_bases.elements.getD _ '?' = st.last_bases.elements.getD _ '?'
    rw [hmodeq]
  have hchain := per_closure s₀ st.last_bases.size (s₀.length - n) hper
    ((s₀.length - 1 - (s₀.length - n + j)) / st.last_bases.size)
    (s₀.length - n + j) (by omega) (by omega)
  rw [hreq, hifr, ← hchain]

/-- Every record of `print_entryN` issued under the freshness invariant
reports the run's first period of consumed symbols as its unit. -/
theorem print_entryN_goodN (st : SeqState) (s₀ : List Char) (n : Nat) (rest : List Char)
    (hr : 2 ≤ st.last_bases.size) (hL : st.last_bases.size < st.length)
    (hinv : InvN s₀ st n) :
    ∀ e, e ∈ print_entryN st s₀.length n →
      GoodRunN st.last_bases.size st.length (s₀ ++ rest) e := by
  intro e he
  obtain ⟨hgate, hee⟩ := print_entryN_mem st s₀.length n e he
  subst hee
  have hn : st.last_bases.size ≤ n := by omega
  have hnp := hinv.2.1
  refine ⟨by simp, hgate, hnp, by simp, ?_⟩
  intro j hj
  show ((List.range st.last_bases.size).map
      fun j => read_ring st.last_bases (j + (s₀.length - n) % st.last_bases.size)).getD j '?' =
    (s₀ ++ rest).getD (s₀.length - n + j) '?'
  rw [getD_map_range _ j _ '?' hj]
  have hmod : (j + (s₀.length - n) % st.last_bases.size) % st.last_bases.size =
      (s₀.length - n + j) % st.last_bases.size := by
    conv_lhs => rw [Nat.add_mod]
    rw [Nat.mod_mod_of_dvd _ (dvd_refl _), ← Nat.add_mod, Nat.add_comm j (s₀.length - n)]
  have hru : read_ring st.last_bases (j + (s₀.length - n) % st.last_bases.size) =
      read_ring st.last_bases (s₀.length - n + j) := by
    show st.last_bases.elements.getD _ '?' = st.last_bases.elements.getD _ '?'
    rw [hmod]
  rw [hru, invN_unit_read s₀ st n j hr hinv hn hj]
  rw [getD_append_left' s₀ rest _ '?' (by have := hinv.2.1; omega)]

/-- `stepN` emits only through `print_entryN` at the current position and
run length. -/
theorem stepN_out_subset (st : SeqState) (p n : Nat) (c : Char) (e : Entry) :
    e ∈ (stepN st p n c).out → e ∈ print_entryN st p n := by
  intro he
  by_cases h1 : n < st.last_bases.size - 1
  · rw [stepN_eq_fill st p n c h1] at he
    simp at he
  · by_cases h2 : st.last_bases.size - 1 < n
    · by_cases h3 : read_ring st.last_bases p = c
      · rw [stepN_eq_match st p n c h2 h3] at he
        simp at he
      · rw [stepN_eq_mismatch st p n c h2 h3] at he
        exact he
    · rw [stepN_eq_boundary st p n c h1 h2] at he
      simp at he

/-- Records of a `scan_seqN` run are well formed against the consumed
stream, from the freshness invariant. -/
theorem scan_seqN_go_goodN :
    ∀ (cs : List Char) (st : SeqState) (p n : Nat) (s₀ : List Char),
      p = s₀.length →
      2 ≤ st.last_bases.size → st.last_bases.size < st.length →
      InvN s₀ st n →
      ∀ e, e ∈ (scan_seqN_go st p n cs).1 →
        GoodRunN st.last_bases.size st.length (s₀ ++ consumedStream cs) e := by
  intro cs
  induction cs with
  | nil =>
    intro st p n s₀ hp hr hL hinv e he
    simp only [scan_seqN_go] at he
    subst hp
    exact print_entryN_goodN st s₀ n (consumedStream []) hr hL hinv e he
  | cons c cs ih =>
    intro st p n s₀ hp hr hL hinv e he
    simp only [scan_seqN_go] at he
    by_cases hc1 : c = '\n'
    · rw [if_pos hc1] at he
      subst hc1
      rw [consumedStream_newline]
      exact ih st p n s₀ hp hr hL hinv e he
    · rw [if_neg hc1] at he
      by_cases hc2 : c = 'N'
      · rw [if_pos hc2] at he
        simp only [List.mem_append] at he
        subst hc2
        rw [consumedStream_cons 'N' cs (by decide) (by decide)]
        rcases he with he | he
        · subst hp
          exact print_entryN_goodN st s₀ n _ hr hL hinv e he
        · rw [show s₀ ++ 'N' :: consumedStream cs = (s₀ ++ ['N']) ++ consumedStream cs by simp]
          refine ih st (p + 1) 0 (s₀ ++ ['N']) (by simp [hp]) hr hL ?_ e he
          obtain ⟨hwf, hnp, hfresh, hper⟩ := hinv
          refine ⟨hwf, by simp, ?_, ?_⟩
          · intro i hi1 hi2
            exfalso
            simp only [List.length_append, List.length_cons, List.length_nil] at hi1 hi2
            omega
          · intro i hi1 hi2
            exfalso
            simp only [List.length_append, List.length_cons, List.length_nil] at hi1 hi2
            omega
      · rw [if_neg hc2] at he
        by_cases hc3 : c = '>'
        · rw [if_pos hc3] at he
          subst hc3
          rw [consumedStream_gt]
          subst hp
          exact print_entryN_goodN st s₀ n _ hr hL hinv e he
        · rw [if_neg hc3] at he
          simp only [List.mem_append] at he
          rw [consumedStream_cons c cs hc1 hc3]
          rcases he with he | he
          · subst hp
            exact print_entryN_goodN st s₀ n _ hr hL hinv e
              (stepN_out_subset st s₀.length n c e he)
          · rw [show s₀ ++ c :: consumedStream cs = (s₀ ++ [c]) ++ consumedStream cs by simp]
            subst hp
            have hres := ih (stepN st s₀.length n c).st (s₀.length + 1)
              (stepN st s₀.length n c).n (s₀ ++ [c]) (by simp)
              (by rw [stepN_size_eq]; exact hr)
              (by rw [stepN_size_eq, stepN_length_eq]; exact hL)
              (invN_step s₀ st n c hr hinv) e he
            rw [stepN_size_eq, stepN_length_eq] at hres
            exact hres

/-- C10.  Buffer freshness: each ordinary-symbol step of the period-N
scanner preserves the invariant that the ring slot `i % period` caches
exactly the symbol consumed at each of the last `min run_length period`
positions `i` (`InvN`, which also carries the run's periodicity);
consequently, for every input stream and arbitrary initial buffer
contents, every emitted record's reconstructed unit consists exactly of
the symbols consumed at the first `period` positions of the reported run,
so no stale datum from before a sequence break or from a previous segment
reaches the output. -/
theorem c10_buffer_freshness :
    (∀ (s₀ : List Char) (st : SeqState) (n : Nat) (c : Char),
      2 ≤ st.last_bases.size → InvN s₀ st n →
      InvN (s₀ ++ [c]) (stepN st s₀.length n c).st (stepN st s₀.length n c).n) ∧
    (∀ (st : SeqState) (xs : List Char) (e : Entry),
      2 ≤ st.last_bases.size →
      st.last_bases.elements.length = st.last_bases.size →
      st.last_bases.size < st.length →
      e ∈ (scan_seqN st xs).1 →
      GoodRunN st.last_bases.size st.length (consumedStream xs) e) := by
  constructor
  · exact invN_step
  · intro st xs e h1 h2 h3 he
    have h := scan_seqN_go_goodN xs st 0 0 [] rfl h1 h3
      ⟨h2, by simp, fun i hi1 hi2 => absurd hi2 (by simp),
        fun i hi1 hi2 => absurd hi2 (by simp)⟩ e he
    simpa using h

/-- C10 witness. -/
theorem c10_buffer_freshness_witness :
    InvN (['A'] ++ ['X'])
      (stepN ⟨⟨2, ['A', 'B']⟩, 3, invalid_repeat2, "chr"⟩ (['A'] : List Char).length 1 'X').st
      (stepN ⟨⟨2, ['A', 'B']⟩, 3, invalid_repeat2, "chr"⟩ (['A'] : List Char).length 1 'X').n := by
  refine c10_buffer_freshness.1 ['A'] ⟨⟨2, ['A', 'B']⟩, 3, invalid_repeat2, "chr"⟩ 1 'X'
    (by decide) ⟨rfl, by decide, ?_, ?_⟩
  · intro i hi1 hi2
    simp only [List.length_cons, List.length_nil] at hi1 hi2
    rw [show i = 0 by omega]
    decide
  · intro i hi1 hi2
    exfalso
    simp only [List.length_cons, List.length_nil] at hi2
    omega

end RepSeq
